import Mathlib

/-!
Verification of `src/Encoder.py` (a single Transformer encoder layer).

Tensors are shallowly embedded as nested lists of integers (the layer's
orchestration is carrier-independent and every claim here concerns wiring,
shapes, error reporting or aliasing, so an exact subring of the reals is
used): a rank-3 tensor of shape (B, K, d) is a list of B matrices, each a
list of K rows of d entries.  The sub-blocks (`MultiHeadAttention`, `PositionwiseFeedForward`,
`nn.LayerNorm`) and the positional-table generator live outside the encoder
file and are treated as external collaborators: the encoder record carries
them as opaque functions, constrained in theorems only by the input/output
contracts the specification gives them (shape preservation, per-batch-element
operation).

Two semantics of `Encoder.forward` are given:
* `Encoder.forward` — value semantics: each program point is the value of the
  tensor bound to `x` at that point (in-place `add_` becomes rebinding).
* `forwardS` — store semantics: tensors live at addresses (indices into a
  list), `add_` writes in place at an address, sub-block applications
  allocate fresh tensors, and Python name binding is address aliasing.  This
  captures which tensor objects are mutated.
-/

abbrev Row := List ℤ
abbrev Mat := List Row
abbrev Tns := List Mat

/-- Shape of a rank-2 tensor: `some (rows, cols)` when the list is a
well-formed non-empty rectangle with non-empty rows, else `none`. -/
def mshape? (m : Mat) : Option (ℕ × ℕ) :=
  match m with
  | [] => none
  | r :: rs =>
    if 0 < r.length ∧ ∀ s ∈ rs, s.length = r.length
    then some (rs.length + 1, r.length) else none

/-- Shape of a rank-3 tensor: `some (B, K, d)` when it is a non-empty list of
matrices all of shape (K, d). -/
def tshape? (t : Tns) : Option (ℕ × ℕ × ℕ) :=
  match t with
  | [] => none
  | m :: ms =>
    (mshape? m).bind fun s =>
      if ∀ m2 ∈ ms, mshape? m2 = some s
      then some (ms.length + 1, s.1, s.2) else none

/-- Expand a list along one dimension to length `n` (broadcast step): a list
already of length `n` is kept, otherwise (the broadcast-compatible case is
length 1) its head is replicated `n` times. -/
def expandTo (n : ℕ) (dflt : α) (l : List α) : List α :=
  if l.length = n then l else List.replicate n (l.headD dflt)

/-- Broadcast a matrix to shape (K, d). -/
def matBC (K d : ℕ) (m : Mat) : Mat :=
  (expandTo K [] m).map (expandTo d 0)

/-- Broadcast a rank-3 tensor to shape (B, K, d). -/
def bc3 (B K d : ℕ) (s : Tns) : Tns :=
  (expandTo B [] s).map (matBC K d)

/-- Elementwise sum of two matrices (truncating; callers establish equal
shapes). -/
def add2 (a b : Mat) : Mat :=
  List.zipWith (List.zipWith (· + ·)) a b

/-- Elementwise sum of two rank-3 tensors. -/
def add3 (a b : Tns) : Tns :=
  List.zipWith add2 a b

/-- PyTorch in-place broadcast addition `x.add_(s)` on a rank-3 target: it
succeeds iff both operands are well-shaped and every dimension of `s` equals
the corresponding dimension of `x` or is 1 (the result must keep `x`'s shape,
so `x`'s dimensions may not grow), in which case `s` is broadcast to `x`'s
shape and added elementwise; otherwise it raises (here: `none`). -/
def addInPlace3 (x s : Tns) : Option Tns :=
  (tshape? x).bind fun xs =>
    (tshape? s).bind fun ss =>
      if (ss.1 = xs.1 ∨ ss.1 = 1) ∧ (ss.2.1 = xs.2.1 ∨ ss.2.1 = 1) ∧
          (ss.2.2 = xs.2.2 ∨ ss.2.2 = 1)
      then some (add3 x (bc3 xs.1 xs.2.1 xs.2.2 s)) else none

/-- Modelled from the spec: `generate_positional_encoding(k, d_model)` (from
`src/utils`, which is not part of this repository's sources) returns a fixed
deterministic table of shape (k, d_model); the spec treats its entries as an
opaque precomputed table, so only determinism and the shape are modelled. -/
def generate_positional_encoding (k d_model : ℕ) : Mat :=
  (List.range k).map fun i => (List.range d_model).map fun j => ((i : ℤ) + (j : ℤ))

/-- The encoder layer: the four sub-blocks are external collaborators
(`src/blocks`, `torch.nn.LayerNorm`), carried as opaque functions together
with their (opaque) learnable parameters, plus the positional table `PE`. -/
structure Encoder where
  selfAttention : Tns → Tns → Tns → Tns
  selfAttentionParams : List ℤ
  feedForward : Tns → Tns
  feedForwardParams : List ℤ
  layerNorm1 : Tns → Tns
  layerNorm1Params : List ℤ
  layerNorm2 : Tns → Tns
  layerNorm2Params : List ℤ
  PE : Mat

/-- Modelled from the spec: `Encoder.__init__` builds the sub-blocks from the
constructor arguments (their internals are external, so their builders are
supplied as arguments here) and computes the positional table once via
`generate_positional_encoding(k, d_model)`. -/
def Encoder.init (d_model q v h k : ℕ)
    (mkAttn : ℕ → ℕ → ℕ → ℕ → (Tns → Tns → Tns → Tns) × List ℤ)
    (mkFF : ℕ → (Tns → Tns) × List ℤ)
    (mkNorm : ℕ → (Tns → Tns) × List ℤ) : Encoder :=
  { selfAttention := (mkAttn d_model q v h).1
    selfAttentionParams := (mkAttn d_model q v h).2
    feedForward := (mkFF d_model).1
    feedForwardParams := (mkFF d_model).2
    layerNorm1 := (mkNorm d_model).1
    layerNorm1Params := (mkNorm d_model).2
    layerNorm2 := (mkNorm d_model).1
    layerNorm2Params := (mkNorm d_model).2
    PE := generate_positional_encoding k d_model }

/-- Modelled from the spec: `torch.nn.Module.parameters()` collects the
learnable parameters of registered sub-modules; `_PE` is assigned as a plain
tensor attribute, so it is not registered and not collected. -/
def Encoder.parameters (e : Encoder) : List ℤ :=
  e.selfAttentionParams ++ e.feedForwardParams ++ e.layerNorm1Params ++ e.layerNorm2Params

/-- Value semantics of `Encoder.forward` (src/Encoder.py lines 53-84),
mirrored line by line; in-place `add_` appears as rebinding of `x`. -/
def Encoder.forward (e : Encoder) (x : Tns) : Option Tns := do
  -- line 70: x.add_(self._PE)
  let x ← addInPlace3 x [e.PE]
  -- line 73: residual = x
  let residual := x
  -- line 74: x = self._selfAttention(query=x, key=x, value=x)
  let x := e.selfAttention x x x
  -- line 75: x.add_(residual)
  let x ← addInPlace3 x residual
  -- line 76: x = self._layerNorm1(x)
  let x := e.layerNorm1 x
  -- line 79: redisual = x   (source typo: binds a NEW name, so `residual`
  --                          keeps pointing at the positionally-encoded input)
  let _redisual := x
  -- line 80: x = self._feedForward(x)
  let x := e.feedForward x
  -- line 81: x.add_(residual)   (the stale, pre-attention residual)
  let x ← addInPlace3 x residual
  -- line 82: x = self._layerNorm2(x)
  let x := e.layerNorm2 x
  -- line 84: return x
  return x

/-- Written from the spec (§4 step 2): the first sub-layer
`y1 = Normalize1(Attention(x', x', x') + x')`, with the same positionally
encoded tensor `x'` as query, key, value and residual. -/
def sublayer1Spec (e : Encoder) (xp : Tns) : Option Tns :=
  (addInPlace3 (e.selfAttention xp xp xp) xp).map e.layerNorm1

/-- Read a tensor from a store (a list of tensors indexed by address). -/
def readS (σ : List Tns) (a : ℕ) : Tns :=
  σ.getD a []

/-- Store semantics of `Encoder.forward`: the caller's tensor lives at
address `ax`; `add_` writes at an address in place; a sub-block application
returns a fresh tensor (appended at a fresh address), per the spec's contract
that sub-blocks produce output tensors; Python assignment is address
aliasing, so line 73 aliases `residual` to `ax` and the line-79 typo binds an
unused new name instead of re-aliasing `residual`. -/
def forwardS (e : Encoder) (σ : List Tns) (ax : ℕ) : Option (List Tns × ℕ) := do
  -- line 70: x.add_(self._PE)  (writes the caller's address in place)
  let x1 ← addInPlace3 (readS σ ax) [e.PE]
  let σ1 := σ.set ax x1
  -- line 73: residual = x  (address aliasing)
  let residual := ax
  -- line 74: x = self._selfAttention(query=x, key=x, value=x)  (fresh tensor)
  let σ2 := σ1 ++ [e.selfAttention (readS σ1 ax) (readS σ1 ax) (readS σ1 ax)]
  let a1 := σ1.length
  -- line 75: x.add_(residual)
  let x2 ← addInPlace3 (readS σ2 a1) (readS σ2 residual)
  let σ3 := σ2.set a1 x2
  -- line 76: x = self._layerNorm1(x)  (fresh tensor)
  let σ4 := σ3 ++ [e.layerNorm1 (readS σ3 a1)]
  let a2 := σ3.length
  -- line 79: redisual = x   (typo: `residual` still aliases `ax`)
  let _redisual := a2
  -- line 80: x = self._feedForward(x)  (fresh tensor)
  let σ5 := σ4 ++ [e.feedForward (readS σ4 a2)]
  let a3 := σ4.length
  -- line 81: x.add_(residual)   (the stale residual address `ax`)
  let x3 ← addInPlace3 (readS σ5 a3) (readS σ5 residual)
  let σ6 := σ5.set a3 x3
  -- line 82: x = self._layerNorm2(x)  (fresh tensor)
  let σ7 := σ6 ++ [e.layerNorm2 (readS σ6 a3)]
  let a4 := σ6.length
  return (σ7, a4)

/-- Identity attention collaborator (a legal instantiation of the external
`MultiHeadAttention` contract: shape-preserving, batch-independent). -/
def idAttn : Tns → Tns → Tns → Tns := fun q _ _ => q

/-- Identity tensor transform (a legal instantiation of the external
feed-forward / normalization contracts). -/
def idT : Tns → Tns := fun t => t

def mkIdAttn : ℕ → ℕ → ℕ → ℕ → (Tns → Tns → Tns → Tns) × List ℤ :=
  fun _ _ _ _ => (idAttn, [])

def mkIdFF : ℕ → (Tns → Tns) × List ℤ := fun _ => (idT, [])

def mkIdNorm : ℕ → (Tns → Tns) × List ℤ := fun _ => (idT, [])

/-- Concrete encoder (identity sub-blocks) built by the modelled constructor. -/
def encId (d_model k : ℕ) : Encoder :=
  Encoder.init d_model 1 1 1 k mkIdAttn mkIdFF mkIdNorm

/-- What the encoder pipeline does to one batch element when every sub-block
acts per batch element (attention as `g`, feed-forward as `gf`, the two
normalizations as `g1`, `g2`) and `X` is the broadcast positional table:
inject, attend with residual, normalize, feed forward with the (stale)
positionally-encoded residual, normalize. -/
def encStep (g gf g1 g2 : Mat → Mat) (X m : Mat) : Mat :=
  let xp := add2 m X
  let y1 := g1 (add2 (g xp) xp)
  g2 (add2 (gf y1) xp)


/-! ### Shape lemmas -/

theorem mshape?_cons (r : Row) (rs : List Row) :
    mshape? (r :: rs) =
      if 0 < r.length ∧ ∀ s ∈ rs, s.length = r.length
      then some (rs.length + 1, r.length) else none := rfl

theorem tshape?_cons (m : Mat) (ms : List Mat) :
    tshape? (m :: ms) =
      (mshape? m).bind fun s =>
        if ∀ m2 ∈ ms, mshape? m2 = some s
        then some (ms.length + 1, s.1, s.2) else none := rfl

theorem tshape?_cons_none {m : Mat} (ms : List Mat) (hm : mshape? m = none) :
    tshape? (m :: ms) = none := by
  rw [tshape?_cons, hm]
  rfl

theorem tshape?_cons_some {m : Mat} (ms : List Mat) {K d : ℕ}
    (hm : mshape? m = some (K, d)) :
    tshape? (m :: ms) =
      if ∀ m2 ∈ ms, mshape? m2 = some (K, d)
      then some (ms.length + 1, K, d) else none := by
  rw [tshape?_cons, hm, Option.some_bind]

theorem mshape?_inv {m : Mat} {K d : ℕ} (h : mshape? m = some (K, d)) :
    m.length = K ∧ 0 < K ∧ 0 < d ∧ ∀ r ∈ m, r.length = d := by
  cases m with
  | nil => exact absurd h (by simp [mshape?])
  | cons r rs =>
    rw [mshape?_cons] at h
    by_cases hc : 0 < r.length ∧ ∀ s ∈ rs, s.length = r.length
    · rw [if_pos hc] at h
      simp only [Option.some.injEq, Prod.mk.injEq] at h
      obtain ⟨hK, hd⟩ := h
      refine ⟨by simp [← hK], by omega, by omega, ?_⟩
      intro s hs
      rcases List.mem_cons.mp hs with rfl | hs
      · exact hd
      · exact (hc.2 s hs).trans hd
    · rw [if_neg hc] at h
      exact absurd h (by simp)

theorem mshape?_intro {m : Mat} {d : ℕ} (hne : m ≠ []) (hd : 0 < d)
    (hrows : ∀ r ∈ m, r.length = d) : mshape? m = some (m.length, d) := by
  cases m with
  | nil => exact absurd rfl hne
  | cons r rs =>
    have hr : r.length = d := hrows r (List.mem_cons_self r rs)
    have hc : 0 < r.length ∧ ∀ s ∈ rs, s.length = r.length :=
      ⟨by omega, fun s hs => (hrows s (List.mem_cons_of_mem r hs)).trans hr.symm⟩
    rw [mshape?_cons, if_pos hc]
    simp [hr]

theorem tshape?_inv {t : Tns} {B K d : ℕ} (h : tshape? t = some (B, K, d)) :
    t.length = B ∧ 0 < B ∧ ∀ m ∈ t, mshape? m = some (K, d) := by
  cases t with
  | nil => exact absurd h (by simp [tshape?])
  | cons m ms =>
    cases hm : mshape? m with
    | none => rw [tshape?_cons_none ms hm] at h; exact absurd h (by simp)
    | some s =>
      obtain ⟨K', d'⟩ := s
      rw [tshape?_cons_some ms hm] at h
      by_cases hc : ∀ m2 ∈ ms, mshape? m2 = some (K', d')
      · rw [if_pos hc] at h
        simp only [Option.some.injEq, Prod.mk.injEq] at h
        obtain ⟨hB, hK, hd⟩ := h
        subst hK
        subst hd
        refine ⟨by simp [← hB], by omega, ?_⟩
        intro m2 hm2
        rcases List.mem_cons.mp hm2 with rfl | hm2
        · exact hm
        · exact hc m2 hm2
      · rw [if_neg hc] at h
        exact absurd h (by simp)

theorem tshape?_intro {t : Tns} {K d : ℕ} (hne : t ≠ [])
    (hmats : ∀ m ∈ t, mshape? m = some (K, d)) :
    tshape? t = some (t.length, K, d) := by
  cases t with
  | nil => exact absurd rfl hne
  | cons m ms =>
    have hm : mshape? m = some (K, d) := hmats m (List.mem_cons_self m ms)
    have hc : ∀ m2 ∈ ms, mshape? m2 = some (K, d) :=
      fun m2 hm2 => hmats m2 (List.mem_cons_of_mem m hm2)
    rw [tshape?_cons_some ms hm, if_pos hc]
    simp

theorem tshape?_pos {t : Tns} {B K d : ℕ} (h : tshape? t = some (B, K, d)) :
    0 < B ∧ 0 < K ∧ 0 < d := by
  obtain ⟨hlen, hB, hmats⟩ := tshape?_inv h
  cases t with
  | nil => simp at hlen; omega
  | cons m ms =>
    obtain ⟨-, hK, hd, -⟩ := mshape?_inv (hmats m (List.mem_cons_self m ms))
    exact ⟨hB, hK, hd⟩

theorem tshape?_singleton {m : Mat} {K d : ℕ} (h : mshape? m = some (K, d)) :
    tshape? [m] = some (1, K, d) := by
  have : ∀ m2 ∈ [m], mshape? m2 = some (K, d) := by
    intro m2 hm2
    rcases List.mem_cons.mp hm2 with rfl | hm2
    · exact h
    · exact absurd hm2 (by simp)
  simpa using tshape?_intro (by simp) this

theorem tshape?_pair {m1 m2 : Mat} {K d : ℕ} (h1 : mshape? m1 = some (K, d))
    (h2 : mshape? m2 = some (K, d)) : tshape? [m1, m2] = some (2, K, d) := by
  have : ∀ m ∈ [m1, m2], mshape? m = some (K, d) := by
    intro m hm
    rcases List.mem_cons.mp hm with rfl | hm
    · exact h1
    rcases List.mem_cons.mp hm with rfl | hm
    · exact h2
    · exact absurd hm (by simp)
  simpa using tshape?_intro (by simp) this

theorem expandTo_length (n : ℕ) (dflt : α) (l : List α) :
    (expandTo n dflt l).length = n := by
  unfold expandTo; split <;> simp_all

theorem expandTo_eq_self {n : ℕ} {dflt : α} {l : List α} (h : l.length = n) :
    expandTo n dflt l = l := by
  unfold expandTo; exact if_pos h

theorem matBC_shape {K d : ℕ} (hK : 0 < K) (hd : 0 < d) (m : Mat) :
    mshape? (matBC K d m) = some (K, d) := by
  have hlen : (matBC K d m).length = K := by
    simp [matBC, expandTo_length]
  have hne : matBC K d m ≠ [] := List.length_pos.mp (by omega)
  have hrows : ∀ r ∈ matBC K d m, r.length = d := by
    intro r hr
    obtain ⟨r', -, rfl⟩ := List.mem_map.mp hr
    exact expandTo_length d 0 r'
  rw [mshape?_intro hne hd hrows, hlen]

theorem matBC_self {K d : ℕ} {m : Mat} (h : mshape? m = some (K, d)) :
    matBC K d m = m := by
  obtain ⟨hlen, hK, hd, hrows⟩ := mshape?_inv h
  unfold matBC
  rw [expandTo_eq_self hlen]
  have hcg : ∀ r ∈ m, expandTo d 0 r = id r :=
    fun r hr => expandTo_eq_self (hrows r hr)
  rw [List.map_congr_left hcg, List.map_id]

theorem bc3_self {B K d : ℕ} {s : Tns} (h : tshape? s = some (B, K, d)) :
    bc3 B K d s = s := by
  obtain ⟨hlen, hB, hmats⟩ := tshape?_inv h
  unfold bc3
  rw [expandTo_eq_self hlen]
  have hcg : ∀ m ∈ s, matBC K d m = id m := fun m hm => matBC_self (hmats m hm)
  rw [List.map_congr_left hcg, List.map_id]

theorem mem_zipWith {f : α → β → γ} :
    ∀ {l1 : List α} {l2 : List β} {c : γ}, c ∈ List.zipWith f l1 l2 →
      ∃ x ∈ l1, ∃ y ∈ l2, c = f x y := by
  intro l1
  induction l1 with
  | nil => intro l2 c h; simp at h
  | cons a as ih =>
    intro l2 c h
    cases l2 with
    | nil => simp at h
    | cons b bs =>
      rw [List.zipWith_cons_cons] at h
      rcases List.mem_cons.mp h with h1 | h2
      · exact ⟨a, by simp, b, by simp, h1⟩
      · obtain ⟨x, hx, y, hy, hc⟩ := ih h2
        exact ⟨x, by simp [hx], y, by simp [hy], hc⟩

theorem add2_shape {K d : ℕ} {a b : Mat} (ha : mshape? a = some (K, d))
    (hb : mshape? b = some (K, d)) : mshape? (add2 a b) = some (K, d) := by
  obtain ⟨hal, hK, hd, har⟩ := mshape?_inv ha
  obtain ⟨hbl, -, -, hbr⟩ := mshape?_inv hb
  have hlen : (add2 a b).length = K := by
    simp [add2, List.length_zipWith, hal, hbl]
  have hne : add2 a b ≠ [] := List.length_pos.mp (by omega)
  have hrows : ∀ r ∈ add2 a b, r.length = d := by
    intro r hr
    obtain ⟨x, hx, y, hy, rfl⟩ := mem_zipWith hr
    simp [List.length_zipWith, har x hx, hbr y hy]
  rw [mshape?_intro hne hd hrows, hlen]

theorem add3_bc3_shape {B K d : ℕ} {x : Tns} (s : Tns)
    (hx : tshape? x = some (B, K, d)) :
    tshape? (add3 x (bc3 B K d s)) = some (B, K, d) := by
  obtain ⟨hxl, hB, hmats⟩ := tshape?_inv hx
  obtain ⟨-, hK, hd⟩ := tshape?_pos hx
  have hbl : (bc3 B K d s).length = B := by simp [bc3, expandTo_length]
  have hlen : (add3 x (bc3 B K d s)).length = B := by
    simp [add3, List.length_zipWith, hxl, hbl]
  have hne : add3 x (bc3 B K d s) ≠ [] := List.length_pos.mp (by omega)
  have hms : ∀ m ∈ add3 x (bc3 B K d s), mshape? m = some (K, d) := by
    intro m hm
    obtain ⟨mx, hmx, my, hmy, rfl⟩ := mem_zipWith hm
    obtain ⟨m', -, rfl⟩ := List.mem_map.mp hmy
    exact add2_shape (hmats mx hmx) (matBC_shape hK hd m')
  rw [tshape?_intro hne hms, hlen]

theorem add3_shape {B K d : ℕ} {a b : Tns} (ha : tshape? a = some (B, K, d))
    (hb : tshape? b = some (B, K, d)) : tshape? (add3 a b) = some (B, K, d) := by
  have := add3_bc3_shape b ha
  rwa [bc3_self hb] at this

/-! ### `addInPlace3` characterization -/

theorem addInPlace3_eq_some {x s : Tns} {B K d b2 k2 d2 : ℕ}
    (hx : tshape? x = some (B, K, d)) (hs : tshape? s = some (b2, k2, d2))
    (hc : (b2 = B ∨ b2 = 1) ∧ (k2 = K ∨ k2 = 1) ∧ (d2 = d ∨ d2 = 1)) :
    addInPlace3 x s = some (add3 x (bc3 B K d s)) := by
  unfold addInPlace3
  rw [hx, hs, Option.some_bind, Option.some_bind]
  exact if_pos hc

theorem addInPlace3_eq_none {x s : Tns} {B K d b2 k2 d2 : ℕ}
    (hx : tshape? x = some (B, K, d)) (hs : tshape? s = some (b2, k2, d2))
    (hc : ¬((b2 = B ∨ b2 = 1) ∧ (k2 = K ∨ k2 = 1) ∧ (d2 = d ∨ d2 = 1))) :
    addInPlace3 x s = none := by
  unfold addInPlace3
  rw [hx, hs, Option.some_bind, Option.some_bind]
  exact if_neg hc

theorem addInPlace3_some_inv {x s t : Tns} (h : addInPlace3 x s = some t) :
    ∃ B K d b2 k2 d2, tshape? x = some (B, K, d) ∧ tshape? s = some (b2, k2, d2) ∧
      ((b2 = B ∨ b2 = 1) ∧ (k2 = K ∨ k2 = 1) ∧ (d2 = d ∨ d2 = 1)) ∧
      t = add3 x (bc3 B K d s) := by
  unfold addInPlace3 at h
  cases hx : tshape? x with
  | none => rw [hx, Option.none_bind] at h; exact absurd h (by simp)
  | some sx =>
    obtain ⟨B, K, d⟩ := sx
    cases hs : tshape? s with
    | none => rw [hx, Option.some_bind, hs, Option.none_bind] at h; exact absurd h (by simp)
    | some ss =>
      obtain ⟨b2, k2, d2⟩ := ss
      rw [hx, Option.some_bind, hs, Option.some_bind] at h
      by_cases hc : (b2 = B ∨ b2 = 1) ∧ (k2 = K ∨ k2 = 1) ∧ (d2 = d ∨ d2 = 1)
      · rw [if_pos hc] at h
        exact ⟨B, K, d, b2, k2, d2, rfl, rfl, hc, (Option.some.injEq _ _ ▸ h).symm⟩
      · rw [if_neg hc] at h
        exact absurd h (by simp)

/-! ### Store lemmas -/

theorem readS_set_self {σ : List Tns} {a : ℕ} (v : Tns) (h : a < σ.length) :
    readS (σ.set a v) a = v := by
  induction σ generalizing a with
  | nil => simp at h
  | cons t ts ih =>
    cases a with
    | zero => rfl
    | succ n =>
      have h' : n < ts.length := by simpa using h
      show (t :: ts.set n v).getD (n + 1) [] = v
      rw [List.getD_cons_succ]
      exact ih h'

theorem readS_set_ne {σ : List Tns} {a b : ℕ} (v : Tns) (h : b ≠ a) :
    readS (σ.set a v) b = readS σ b := by
  induction σ generalizing a b with
  | nil => rfl
  | cons t ts ih =>
    cases a with
    | zero =>
      cases b with
      | zero => exact absurd rfl h
      | succ m => rfl
    | succ n =>
      cases b with
      | zero => rfl
      | succ m =>
        show (t :: ts.set n v).getD (m + 1) [] = (t :: ts).getD (m + 1) []
        rw [List.getD_cons_succ, List.getD_cons_succ]
        exact ih (fun hh => h (by rw [hh]))

theorem readS_append_lt {σ τ : List Tns} {a : ℕ} (h : a < σ.length) :
    readS (σ ++ τ) a = readS σ a :=
  List.getD_append σ τ [] a h

theorem readS_append_self (σ : List Tns) (v : Tns) :
    readS (σ ++ [v]) σ.length = v := by
  induction σ with
  | nil => rfl
  | cons t ts ih =>
    show (t :: (ts ++ [v])).getD (ts.length + 1) [] = v
    rw [List.getD_cons_succ]
    exact ih

/-- The store semantics refines the value semantics: reading the result of
`forwardS` gives exactly `Encoder.forward` of the caller's tensor value. -/
theorem forwardS_read (e : Encoder) (σ : List Tns) (ax : ℕ) (hax : ax < σ.length) :
    (forwardS e σ ax).map (fun p => readS p.1 p.2) = e.forward (readS σ ax) := by
  unfold forwardS Encoder.forward
  cases h1 : addInPlace3 (readS σ ax) [e.PE] with
  | none => simp
  | some x1 =>
    simp only [Option.bind_eq_bind, Option.some_bind]
    set σ1 := σ.set ax x1 with hs1
    have hl1 : σ1.length = σ.length := by rw [hs1]; exact List.length_set σ ax x1
    have e1 : readS σ1 ax = x1 := by rw [hs1]; exact readS_set_self x1 hax
    rw [e1]
    set A := e.selfAttention x1 x1 x1 with hA
    set σ2 := σ1 ++ [A] with hs2
    have hl2 : σ2.length = σ.length + 1 := by rw [hs2]; simp [hl1]
    have e2 : readS σ2 σ1.length = A := by rw [hs2]; exact readS_append_self σ1 A
    have e3 : readS σ2 ax = x1 := by
      rw [hs2, readS_append_lt (by omega)]
      exact e1
    rw [e2, e3]
    cases h2 : addInPlace3 A x1 with
    | none => simp
    | some x2 =>
      simp only [Option.some_bind]
      set σ3 := σ2.set σ1.length x2 with hs3
      have hl3 : σ3.length = σ.length + 1 := by rw [hs3]; simp [hl2]
      have e4 : readS σ3 σ1.length = x2 := by
        rw [hs3]; exact readS_set_self x2 (by omega)
      rw [e4]
      set N := e.layerNorm1 x2 with hN
      set σ4 := σ3 ++ [N] with hs4
      have hl4 : σ4.length = σ.length + 2 := by rw [hs4]; simp [hl3]
      have e5 : readS σ4 σ3.length = N := by rw [hs4]; exact readS_append_self σ3 N
      rw [e5]
      set F := e.feedForward N with hF
      set σ5 := σ4 ++ [F] with hs5
      have hl5 : σ5.length = σ.length + 3 := by rw [hs5]; simp [hl4]
      have e6 : readS σ5 σ4.length = F := by rw [hs5]; exact readS_append_self σ4 F
      have e7 : readS σ5 ax = x1 := by
        rw [hs5, readS_append_lt (by omega)]
        rw [hs4, readS_append_lt (by omega)]
        rw [hs3, readS_set_ne x2 (by omega)]
        exact e3
      rw [e6, e7]
      cases h3 : addInPlace3 F x1 with
      | none => simp
      | some x3 =>
        simp only [Option.some_bind]
        set σ6 := σ5.set σ4.length x3 with hs6
        have e8 : readS σ6 σ4.length = x3 := by
          rw [hs6]; exact readS_set_self x3 (by omega)
        rw [e8]
        set R := e.layerNorm2 x3 with hR
        set σ7 := σ6 ++ [R] with hs7
        have e9 : readS σ7 σ6.length = R := by rw [hs7]; exact readS_append_self σ6 R
        simp [e9]

/-- Anatomy of a successful `forwardS` run: the caller's address ends up
holding exactly the result of the in-place positional injection (line 70),
and every other pre-existing address is untouched (the two later in-place
additions hit only the freshly allocated sub-block outputs). -/
theorem forwardS_success (e : Encoder) {σ σ' : List Tns} {ax r : ℕ} (hax : ax < σ.length)
    (hrun : forwardS e σ ax = some (σ', r)) :
    addInPlace3 (readS σ ax) [e.PE] = some (readS σ' ax) ∧
    ∀ a, a < σ.length → a ≠ ax → readS σ' a = readS σ a := by
  unfold forwardS at hrun
  cases h1 : addInPlace3 (readS σ ax) [e.PE] with
  | none => rw [h1] at hrun; simp at hrun
  | some x1 =>
    rw [h1] at hrun
    simp only [Option.bind_eq_bind, Option.some_bind] at hrun
    set σ1 := σ.set ax x1 with hs1
    have hl1 : σ1.length = σ.length := by rw [hs1]; exact List.length_set σ ax x1
    set A := e.selfAttention (readS σ1 ax) (readS σ1 ax) (readS σ1 ax) with hA
    set σ2 := σ1 ++ [A] with hs2
    have hl2 : σ2.length = σ.length + 1 := by rw [hs2]; simp [hl1]
    cases h2 : addInPlace3 (readS σ2 σ1.length) (readS σ2 ax) with
    | none => rw [h2] at hrun; simp at hrun
    | some x2 =>
      rw [h2, Option.some_bind] at hrun
      set σ3 := σ2.set σ1.length x2 with hs3
      have hl3 : σ3.length = σ.length + 1 := by rw [hs3]; simp [hl2]
      set N := e.layerNorm1 (readS σ3 σ1.length) with hN
      set σ4 := σ3 ++ [N] with hs4
      have hl4 : σ4.length = σ.length + 2 := by rw [hs4]; simp [hl3]
      set F := e.feedForward (readS σ4 σ3.length) with hF
      set σ5 := σ4 ++ [F] with hs5
      have hl5 : σ5.length = σ.length + 3 := by rw [hs5]; simp [hl4]
      cases h3 : addInPlace3 (readS σ5 σ4.length) (readS σ5 ax) with
      | none => rw [h3] at hrun; simp at hrun
      | some x3 =>
        rw [h3, Option.some_bind] at hrun
        set σ6 := σ5.set σ4.length x3 with hs6
        have hl6 : σ6.length = σ.length + 3 := by rw [hs6]; simp [hl5]
        set R := e.layerNorm2 (readS σ6 σ4.length) with hR
        set σ7 := σ6 ++ [R] with hs7
        simp only [Option.pure_def, Option.some.injEq, Prod.mk.injEq] at hrun
        obtain ⟨hσ', hr⟩ := hrun
        subst hσ'
        have eax : readS σ7 ax = x1 := by
          rw [hs7, readS_append_lt (by omega)]
          rw [hs6, readS_set_ne x3 (by omega)]
          rw [hs5, readS_append_lt (by omega)]
          rw [hs4, readS_append_lt (by omega)]
          rw [hs3, readS_set_ne x2 (by omega)]
          rw [hs2, readS_append_lt (by omega)]
          rw [hs1]
          exact readS_set_self x1 hax
        constructor
        · rw [eax]
        · intro a ha hne
          rw [hs7, readS_append_lt (by omega)]
          rw [hs6, readS_set_ne x3 (by omega)]
          rw [hs5, readS_append_lt (by omega)]
          rw [hs4, readS_append_lt (by omega)]
          rw [hs3, readS_set_ne x2 (by omega)]
          rw [hs2, readS_append_lt (by omega)]
          rw [hs1]
          exact readS_set_ne x1 hne

/-! ### Batch decomposition lemmas -/

theorem bc3_single (K d : ℕ) (p : Mat) : bc3 1 K d [p] = [matBC K d p] := by
  unfold bc3
  rw [expandTo_eq_self (by simp)]
  rfl

theorem bc3_pair_bcast (K d : ℕ) (p : Mat) :
    bc3 2 K d [p] = [matBC K d p, matBC K d p] := by
  unfold bc3
  have he : expandTo 2 ([] : Mat) [p] = [p, p] := by
    unfold expandTo
    rw [if_neg (by simp)]
    rfl
  rw [he]
  rfl

theorem addInPlace3_single_single {a b : Mat} {K d : ℕ}
    (ha : mshape? a = some (K, d)) (hb : mshape? b = some (K, d)) :
    addInPlace3 [a] [b] = some [add2 a b] := by
  have hsa := tshape?_singleton ha
  have hsb := tshape?_singleton hb
  rw [addInPlace3_eq_some hsa hsb ⟨Or.inl rfl, Or.inl rfl, Or.inl rfl⟩, bc3_self hsb]
  rfl

theorem addInPlace3_pair_pair {a1 a2 b1 b2 : Mat} {K d : ℕ}
    (ha1 : mshape? a1 = some (K, d)) (ha2 : mshape? a2 = some (K, d))
    (hb1 : mshape? b1 = some (K, d)) (hb2 : mshape? b2 = some (K, d)) :
    addInPlace3 [a1, a2] [b1, b2] = some [add2 a1 b1, add2 a2 b2] := by
  have hsa := tshape?_pair ha1 ha2
  have hsb := tshape?_pair hb1 hb2
  rw [addInPlace3_eq_some hsa hsb ⟨Or.inl rfl, Or.inl rfl, Or.inl rfl⟩, bc3_self hsb]
  rfl

theorem addInPlace3_single_pe {m p : Mat} {K d k2 d2 : ℕ}
    (hm : mshape? m = some (K, d)) (hp : mshape? p = some (k2, d2))
    (hck : k2 = K ∨ k2 = 1) (hcd : d2 = d ∨ d2 = 1) :
    addInPlace3 [m] [p] = some [add2 m (matBC K d p)] := by
  rw [addInPlace3_eq_some (tshape?_singleton hm) (tshape?_singleton hp)
    ⟨Or.inr rfl, hck, hcd⟩]
  rw [bc3_single]
  rfl

theorem addInPlace3_pair_pe {m1 m2 p : Mat} {K d k2 d2 : ℕ}
    (hm1 : mshape? m1 = some (K, d)) (hm2 : mshape? m2 = some (K, d))
    (hp : mshape? p = some (k2, d2))
    (hck : k2 = K ∨ k2 = 1) (hcd : d2 = d ∨ d2 = 1) :
    addInPlace3 [m1, m2] [p] = some [add2 m1 (matBC K d p), add2 m2 (matBC K d p)] := by
  rw [addInPlace3_eq_some (tshape?_pair hm1 hm2) (tshape?_singleton hp)
    ⟨Or.inr rfl, hck, hcd⟩]
  rw [bc3_pair_bcast]
  rfl

theorem forward_first_step {e : Encoder} {x y : Tns} (h : e.forward x = some y) :
    ∃ t, addInPlace3 x [e.PE] = some t := by
  unfold Encoder.forward at h
  cases c : addInPlace3 x [e.PE] with
  | none => rw [c] at h; simp at h
  | some t => exact ⟨t, rfl⟩

/-- On a one-element batch, forward computes `encStep` on that element,
provided all four sub-blocks act per batch element with shape-preserving
per-element maps. -/
theorem forward_single (e : Encoder) (g gf g1 g2 : Mat → Mat) {K d k2 d2 : ℕ} (m : Mat)
    (hattn : ∀ t : Tns, e.selfAttention t t t = t.map g)
    (hffm : ∀ t : Tns, e.feedForward t = t.map gf)
    (hn1m : ∀ t : Tns, e.layerNorm1 t = t.map g1)
    (hn2m : ∀ t : Tns, e.layerNorm2 t = t.map g2)
    (hg : ∀ m2, mshape? m2 = some (K, d) → mshape? (g m2) = some (K, d))
    (hgf : ∀ m2, mshape? m2 = some (K, d) → mshape? (gf m2) = some (K, d))
    (hg1 : ∀ m2, mshape? m2 = some (K, d) → mshape? (g1 m2) = some (K, d))
    (hm : mshape? m = some (K, d)) (hpe : mshape? e.PE = some (k2, d2))
    (hck : k2 = K ∨ k2 = 1) (hcd : d2 = d ∨ d2 = 1) :
    e.forward [m] = some [encStep g gf g1 g2 (matBC K d e.PE) m] := by
  obtain ⟨-, hK, hd, -⟩ := mshape?_inv hm
  have hxps : mshape? (add2 m (matBC K d e.PE)) = some (K, d) :=
    add2_shape hm (matBC_shape hK hd e.PE)
  have hy1s : mshape? (g1 (add2 (g (add2 m (matBC K d e.PE))) (add2 m (matBC K d e.PE)))) = some (K, d) :=
    hg1 _ (add2_shape (hg _ hxps) hxps)
  unfold Encoder.forward
  rw [addInPlace3_single_pe hm hpe hck hcd]
  simp only [Option.bind_eq_bind, Option.some_bind]
  rw [hattn]
  simp only [List.map_cons, List.map_nil]
  rw [addInPlace3_single_single (hg _ hxps) hxps]
  simp only [Option.some_bind]
  rw [hn1m]
  simp only [List.map_cons, List.map_nil]
  rw [hffm]
  simp only [List.map_cons, List.map_nil]
  rw [addInPlace3_single_single (hgf _ hy1s) hxps]
  simp only [Option.some_bind]
  rw [hn2m]
  simp only [List.map_cons, List.map_nil, Option.pure_def]
  rfl

/-- On a two-element batch, forward computes `encStep` elementwise. -/
theorem forward_pair (e : Encoder) (g gf g1 g2 : Mat → Mat) {K d k2 d2 : ℕ} (m1 m2 : Mat)
    (hattn : ∀ t : Tns, e.selfAttention t t t = t.map g)
    (hffm : ∀ t : Tns, e.feedForward t = t.map gf)
    (hn1m : ∀ t : Tns, e.layerNorm1 t = t.map g1)
    (hn2m : ∀ t : Tns, e.layerNorm2 t = t.map g2)
    (hg : ∀ m2, mshape? m2 = some (K, d) → mshape? (g m2) = some (K, d))
    (hgf : ∀ m2, mshape? m2 = some (K, d) → mshape? (gf m2) = some (K, d))
    (hg1 : ∀ m2, mshape? m2 = some (K, d) → mshape? (g1 m2) = some (K, d))
    (hm1 : mshape? m1 = some (K, d)) (hm2 : mshape? m2 = some (K, d))
    (hpe : mshape? e.PE = some (k2, d2))
    (hck : k2 = K ∨ k2 = 1) (hcd : d2 = d ∨ d2 = 1) :
    e.forward [m1, m2] =
      some [encStep g gf g1 g2 (matBC K d e.PE) m1,
            encStep g gf g1 g2 (matBC K d e.PE) m2] := by
  obtain ⟨-, hK, hd, -⟩ := mshape?_inv hm1
  have hxps1 : mshape? (add2 m1 (matBC K d e.PE)) = some (K, d) :=
    add2_shape hm1 (matBC_shape hK hd e.PE)
  have hxps2 : mshape? (add2 m2 (matBC K d e.PE)) = some (K, d) :=
    add2_shape hm2 (matBC_shape hK hd e.PE)
  have hy1s1 : mshape? (g1 (add2 (g (add2 m1 (matBC K d e.PE))) (add2 m1 (matBC K d e.PE)))) = some (K, d) :=
    hg1 _ (add2_shape (hg _ hxps1) hxps1)
  have hy1s2 : mshape? (g1 (add2 (g (add2 m2 (matBC K d e.PE))) (add2 m2 (matBC K d e.PE)))) = some (K, d) :=
    hg1 _ (add2_shape (hg _ hxps2) hxps2)
  unfold Encoder.forward
  rw [addInPlace3_pair_pe hm1 hm2 hpe hck hcd]
  simp only [Option.bind_eq_bind, Option.some_bind]
  rw [hattn]
  simp only [List.map_cons, List.map_nil]
  rw [addInPlace3_pair_pair (hg _ hxps1) (hg _ hxps2) hxps1 hxps2]
  simp only [Option.some_bind]
  rw [hn1m]
  simp only [List.map_cons, List.map_nil]
  rw [hffm]
  simp only [List.map_cons, List.map_nil]
  rw [addInPlace3_pair_pair (hgf _ hy1s1) (hgf _ hy1s2) hxps1 hxps2]
  simp only [Option.some_bind]
  rw [hn2m]
  simp only [List.map_cons, List.map_nil, Option.pure_def]
  rfl

/-! ### Claim theorems -/

/-- C3: for every input, forward factors as: positional injection producing
`x' = x + PE`, then the first sub-layer computed exactly as
`Normalize1(Attention(x', x', x') + x')` (the same `x'` passed as query, key
and value, and captured as the residual before attention), then the second
sub-layer. -/
theorem encoder_first_sublayer_wiring (e : Encoder) (x : Tns) :
    e.forward x =
      (addInPlace3 x [e.PE]).bind fun xp =>
        (sublayer1Spec e xp).bind fun y1 =>
          (addInPlace3 (e.feedForward y1) xp).map e.layerNorm2 := by
  unfold Encoder.forward sublayer1Spec
  cases h1 : addInPlace3 x [e.PE] with
  | none => simp
  | some xp =>
    simp only [Option.bind_eq_bind, Option.some_bind]
    cases h2 : addInPlace3 (e.selfAttention xp xp xp) xp with
    | none => simp
    | some t2 =>
      simp only [Option.map_some', Option.some_bind]
      cases h3 : addInPlace3 (e.feedForward (e.layerNorm1 t2)) xp with
      | none => simp
      | some t3 => simp

/-- C1 (code bug): at the concrete encoder built by the constructor with
identity sub-blocks (d_model = k = 1, so PE = [[0]] and x' = x), the program
returns `Normalize2(FeedForward(y1) + x')` = [[[3]]] — line 81 adds the
residual bound at line 73, because line 79 misspells it `redisual` — whereas
the claimed composition `Normalize2(FeedForward(y1) + y1)` with
y1 = [[[2]]] (the actual first sub-layer output) yields [[[4]]]. -/
theorem encoder_second_residual_diverges :
    Encoder.forward (encId 1 1) [[[(1 : ℤ)]]] = some [[[3]]] ∧
    sublayer1Spec (encId 1 1) [[[(1 : ℤ)]]] = some [[[2]]] ∧
    (addInPlace3 ((encId 1 1).feedForward [[[(2 : ℤ)]]]) [[[(2 : ℤ)]]]).map
      (encId 1 1).layerNorm2 = some [[[4]]] := by
  decide

/-- C2 (counterexample): an input with K = 1 ≤ k = 2 — valid according to the
claim — makes forward raise at the in-place positional addition instead of
returning a (1, 1, 1)-shaped tensor, because the (2, 1) table cannot be
broadcast in place into a (1, 1, 1) target. -/
theorem encoder_shape_claim_counterexample :
    tshape? [[[(5 : ℤ)]]] = some (1, 1, 1) ∧
    mshape? (encId 1 2).PE = some (2, 1) ∧
    Encoder.forward (encId 1 2) [[[(5 : ℤ)]]] = none := by
  decide

/-- C2 (amended): for valid inputs of shape (B, K, d_model) with K = k,
forward returns a tensor of the same shape (B, K, d_model), given the
spec's shape-preservation contracts for the four sub-blocks. -/
theorem encoder_shape_preservation (e : Encoder) (x : Tns) (B K d : ℕ)
    (hattn : ∀ t : Tns, tshape? t = some (B, K, d) →
      tshape? (e.selfAttention t t t) = some (B, K, d))
    (hff : ∀ t : Tns, tshape? t = some (B, K, d) → tshape? (e.feedForward t) = some (B, K, d))
    (hn1 : ∀ t : Tns, tshape? t = some (B, K, d) → tshape? (e.layerNorm1 t) = some (B, K, d))
    (hn2 : ∀ t : Tns, tshape? t = some (B, K, d) → tshape? (e.layerNorm2 t) = some (B, K, d))
    (hx : tshape? x = some (B, K, d)) (hpe : mshape? e.PE = some (K, d)) :
    (e.forward x).bind tshape? = some (B, K, d) := by
  have hs : tshape? [e.PE] = some (1, K, d) := tshape?_singleton hpe
  have h1 : addInPlace3 x [e.PE] = some (add3 x (bc3 B K d [e.PE])) :=
    addInPlace3_eq_some hx hs ⟨Or.inr rfl, Or.inl rfl, Or.inl rfl⟩
  have hxp : tshape? (add3 x (bc3 B K d [e.PE])) = some (B, K, d) := add3_bc3_shape _ hx
  set xp := add3 x (bc3 B K d [e.PE]) with hxpdef
  have ha : tshape? (e.selfAttention xp xp xp) = some (B, K, d) := hattn _ hxp
  have h2 : addInPlace3 (e.selfAttention xp xp xp) xp =
      some (add3 (e.selfAttention xp xp xp) (bc3 B K d xp)) :=
    addInPlace3_eq_some ha hxp ⟨Or.inl rfl, Or.inl rfl, Or.inl rfl⟩
  have h2s : tshape? (add3 (e.selfAttention xp xp xp) (bc3 B K d xp)) = some (B, K, d) :=
    add3_bc3_shape _ ha
  have hn1s := hn1 _ h2s
  have hffs := hff _ hn1s
  have h3 : addInPlace3 (e.feedForward (e.layerNorm1 (add3 (e.selfAttention xp xp xp) (bc3 B K d xp)))) xp =
      some (add3 (e.feedForward (e.layerNorm1 (add3 (e.selfAttention xp xp xp) (bc3 B K d xp)))) (bc3 B K d xp)) :=
    addInPlace3_eq_some hffs hxp ⟨Or.inl rfl, Or.inl rfl, Or.inl rfl⟩
  have h3s := add3_bc3_shape (s := xp) hffs
  have hfin := hn2 _ h3s
  unfold Encoder.forward
  rw [h1]
  simp only [Option.bind_eq_bind, Option.some_bind]
  rw [h2]
  simp only [Option.some_bind]
  rw [h3]
  simp only [Option.some_bind, Option.pure_def, Option.some_bind]
  exact hfin

/-- C2 (witness): the amended shape-preservation theorem at a concrete
instantiation (identity sub-blocks, B = K = d = k = 1). -/
theorem encoder_shape_preservation_witness :
    ((encId 1 1).forward [[[(5 : ℤ)]]]).bind tshape? = some (1, 1, 1) :=
  encoder_shape_preservation (encId 1 1) [[[(5 : ℤ)]]] 1 1 1
    (fun _ h => h) (fun _ h => h) (fun _ h => h) (fun _ h => h) (by decide) (by decide)

/-- C5 (counterexample): with k = 1 (a valid construction, k > 0), an input
of sequence length K = 2 > k = 1 is NOT rejected: the (1, d) table broadcasts
silently over the length dimension (every position receives the single table
row — silent wrapping), and forward produces an output. -/
theorem encoder_overflow_silent_when_k_eq_one :
    mshape? (encId 1 1).PE = some (1, 1) ∧
    tshape? [[[(1 : ℤ)], [(2 : ℤ)]]] = some (1, 2, 1) ∧
    Encoder.forward (encId 1 1) [[[(1 : ℤ)], [(2 : ℤ)]]] = some [[[3], [6]]] := by
  decide

/-- C5 (amended): provided k > 1, every input with sequence length K > k is
rejected: the in-place broadcast of the (k, d) table fails at line 70, so
forward reports an error rather than truncating or wrapping. -/
theorem encoder_overflow_error_when_k_gt_one (e : Encoder) (x : Tns) (B K d k2 d2 : ℕ)
    (hx : tshape? x = some (B, K, d)) (hpe : mshape? e.PE = some (k2, d2))
    (hk : 1 < k2) (hK : k2 < K) : e.forward x = none := by
  have hs : tshape? [e.PE] = some (1, k2, d2) := tshape?_singleton hpe
  have hnone : addInPlace3 x [e.PE] = none := by
    apply addInPlace3_eq_none hx hs
    rintro ⟨-, hck, -⟩
    rcases hck with h | h <;> omega
  unfold Encoder.forward
  rw [hnone]
  simp

/-- C5 (witness): k = 2 > 1, input length K = 3 > 2, forward errors. -/
theorem encoder_overflow_error_when_k_gt_one_witness :
    Encoder.forward (encId 1 2) [[[(7 : ℤ)], [(7 : ℤ)], [(7 : ℤ)]]] = none :=
  encoder_overflow_error_when_k_gt_one (encId 1 2) [[[(7 : ℤ)], [(7 : ℤ)], [(7 : ℤ)]]]
    1 3 1 2 1 (by decide) (by decide) (by decide) (by decide)

/-- C6 (counterexample): with d_model = 1 (a valid construction, d_model > 0),
an input whose last dimension is 2 ≠ d_model = 1 is NOT rejected: the (k, 1)
table broadcasts silently over the feature dimension and forward produces an
output. -/
theorem encoder_dmodel_mismatch_silent_when_dmodel_one :
    mshape? (encId 1 1).PE = some (1, 1) ∧
    tshape? [[[(1 : ℤ), (2 : ℤ)]]] = some (1, 1, 2) ∧
    Encoder.forward (encId 1 1) [[[(1 : ℤ), (2 : ℤ)]]] = some [[[3, 6]]] := by
  decide

/-- C6 (amended): provided d_model > 1, every input whose last dimension
differs from d_model is rejected immediately at the positional injection
(line 70), before any sub-block runs, and forward returns no result. -/
theorem encoder_dmodel_mismatch_error (e : Encoder) (x : Tns) (B K d k2 d2 : ℕ)
    (hx : tshape? x = some (B, K, d)) (hpe : mshape? e.PE = some (k2, d2))
    (hd2 : 1 < d2) (hne : d ≠ d2) : e.forward x = none := by
  have hs : tshape? [e.PE] = some (1, k2, d2) := tshape?_singleton hpe
  have hnone : addInPlace3 x [e.PE] = none := by
    apply addInPlace3_eq_none hx hs
    rintro ⟨-, -, hcd⟩
    rcases hcd with h | h <;> omega
  unfold Encoder.forward
  rw [hnone]
  simp

/-- C6 (witness): d_model = 2 > 1, input last dimension 1 ≠ 2, forward errors. -/
theorem encoder_dmodel_mismatch_error_witness :
    Encoder.forward (encId 2 1) [[[(5 : ℤ)]]] = none :=
  encoder_dmodel_mismatch_error (encId 2 1) [[[(5 : ℤ)]]] 1 1 1 1 2
    (by decide) (by decide) (by decide) (by decide)

/-- C10: when k > 1, every input with sequence length K < k makes the
in-place broadcast addition of the (k, d) positional table fail (k ≠ K and
k ≠ 1, and an in-place target cannot grow), so forward reports an error: no
input strictly shorter than the table capacity can be processed. -/
theorem encoder_short_input_error (e : Encoder) (x : Tns) (B K d k2 d2 : ℕ)
    (hx : tshape? x = some (B, K, d)) (hpe : mshape? e.PE = some (k2, d2))
    (hk : 1 < k2) (hK : K < k2) : e.forward x = none := by
  have hs : tshape? [e.PE] = some (1, k2, d2) := tshape?_singleton hpe
  have hnone : addInPlace3 x [e.PE] = none := by
    apply addInPlace3_eq_none hx hs
    rintro ⟨-, hck, -⟩
    rcases hck with h | h <;> omega
  unfold Encoder.forward
  rw [hnone]
  simp

/-- C10 (witness): k = 2 > 1, input length K = 1 < 2, forward errors. -/
theorem encoder_short_input_error_witness :
    Encoder.forward (encId 1 2) [[[(7 : ℤ)]]] = none :=
  encoder_short_input_error (encId 1 2) [[[(7 : ℤ)]]] 1 1 1 2 1
    (by decide) (by decide) (by decide) (by decide)

/-- C4: in the store semantics, after a successful forward run the caller's
tensor (address `ax`) holds exactly the result of the in-place broadcast
addition `x.add_(PE)` of line 70 — i.e. x + PE — and no later step of
forward mutates it further (the two later in-place additions write only to
the freshly allocated sub-block outputs). -/
theorem encoder_forward_mutates_input_in_place (e : Encoder) (σ σ' : List Tns) (ax r : ℕ)
    (hax : ax < σ.length) (hrun : forwardS e σ ax = some (σ', r)) :
    addInPlace3 (readS σ ax) [e.PE] = some (readS σ' ax) :=
  (forwardS_success e hax hrun).1

/-- C4 (witness): a concrete run; the caller's cell (address 0) holds
x + PE = [[[1]]] after the run. -/
theorem encoder_forward_mutates_input_in_place_witness :
    addInPlace3 (readS [[[[(1 : ℤ)]]]] 0) [(encId 1 1).PE] =
      some (readS [[[[(1 : ℤ)]]], [[[(2 : ℤ)]]], [[[(2 : ℤ)]]], [[[(3 : ℤ)]]], [[[(3 : ℤ)]]]] 0) :=
  encoder_forward_mutates_input_in_place (encId 1 1) [[[[(1 : ℤ)]]]]
    [[[[(1 : ℤ)]]], [[[(2 : ℤ)]]], [[[(2 : ℤ)]]], [[[(3 : ℤ)]]], [[[(3 : ℤ)]]]] 0 4
    (by decide) (by decide)

/-- C7: (i) forward never writes any pre-existing address other than the
caller's input address — in particular a stored positional table is only
read, never mutated, across forward invocations; (ii) the (modelled)
parameter collection contains only the sub-blocks' learnable parameters and
is independent of the PE field, which is not registered; (iii) the
(modelled) constructor creates PE once, deterministically, from (k, d_model). -/
theorem encoder_pe_immutable_not_parameter (e : Encoder) (σ σ' : List Tns)
    (ax r aPE : ℕ) (pe' : Mat) (d_model q v h k : ℕ)
    (mkAttn : ℕ → ℕ → ℕ → ℕ → (Tns → Tns → Tns → Tns) × List ℤ)
    (mkFF : ℕ → (Tns → Tns) × List ℤ) (mkNorm : ℕ → (Tns → Tns) × List ℤ)
    (hax : ax < σ.length) (hrun : forwardS e σ ax = some (σ', r))
    (haPE : aPE < σ.length) (hne : aPE ≠ ax) :
    readS σ' aPE = readS σ aPE ∧
    Encoder.parameters { e with PE := pe' } = Encoder.parameters e ∧
    (Encoder.init d_model q v h k mkAttn mkFF mkNorm).PE =
      generate_positional_encoding k d_model :=
  ⟨(forwardS_success e hax hrun).2 aPE haPE hne, rfl, rfl⟩

/-- C7 (witness): a concrete run with a second tensor stored at address 1;
it is unchanged by forward. -/
theorem encoder_pe_immutable_not_parameter_witness :
    readS [[[[(1 : ℤ)]]], [[[(9 : ℤ)]]], [[[(2 : ℤ)]]], [[[(2 : ℤ)]]], [[[(3 : ℤ)]]], [[[(3 : ℤ)]]]] 1 =
      readS [[[[(1 : ℤ)]]], [[[(9 : ℤ)]]]] 1 ∧
    Encoder.parameters { encId 1 1 with PE := [[(5 : ℤ)]] } = Encoder.parameters (encId 1 1) ∧
    (Encoder.init 1 1 1 1 1 mkIdAttn mkIdFF mkIdNorm).PE = generate_positional_encoding 1 1 :=
  encoder_pe_immutable_not_parameter (encId 1 1) [[[[(1 : ℤ)]]], [[[(9 : ℤ)]]]]
    [[[[(1 : ℤ)]]], [[[(9 : ℤ)]]], [[[(2 : ℤ)]]], [[[(2 : ℤ)]]], [[[(3 : ℤ)]]], [[[(3 : ℤ)]]]]
    0 5 1 [[(5 : ℤ)]] 1 1 1 1 1 mkIdAttn mkIdFF mkIdNorm
    (by decide) (by decide) (by decide) (by decide)

/-- C8: forward is deterministic and free of I/O and randomness: its result
value is a function of the parameter values and the input tensor value
alone — two runs from stores that agree on the input value (at possibly
different addresses) produce equal output values. -/
theorem encoder_forward_deterministic (e : Encoder) (σ1 σ2 σ1' σ2' : List Tns)
    (ax1 ax2 r1 r2 : ℕ) (hax1 : ax1 < σ1.length) (hax2 : ax2 < σ2.length)
    (hval : readS σ1 ax1 = readS σ2 ax2)
    (h1 : forwardS e σ1 ax1 = some (σ1', r1)) (h2 : forwardS e σ2 ax2 = some (σ2', r2)) :
    readS σ1' r1 = readS σ2' r2 := by
  have b1 := forwardS_read e σ1 ax1 hax1
  have b2 := forwardS_read e σ2 ax2 hax2
  rw [h1] at b1
  rw [h2] at b2
  simp only [Option.map_some'] at b1 b2
  rw [hval] at b1
  rw [← b2] at b1
  exact Option.some.inj b1

/-- C8 (witness): the same input value at two different addresses in two
different stores yields the same output value. -/
theorem encoder_forward_deterministic_witness :
    readS [[[[(1 : ℤ)]]], [[[(2 : ℤ)]]], [[[(2 : ℤ)]]], [[[(3 : ℤ)]]], [[[(3 : ℤ)]]]] 4 =
      readS [[], [[[(1 : ℤ)]]], [[[(2 : ℤ)]]], [[[(2 : ℤ)]]], [[[(3 : ℤ)]]], [[[(3 : ℤ)]]]] 5 :=
  encoder_forward_deterministic (encId 1 1) [[[[(1 : ℤ)]]]] [[], [[[(1 : ℤ)]]]]
    [[[[(1 : ℤ)]]], [[[(2 : ℤ)]]], [[[(2 : ℤ)]]], [[[(3 : ℤ)]]], [[[(3 : ℤ)]]]]
    [[], [[[(1 : ℤ)]]], [[[(2 : ℤ)]]], [[[(2 : ℤ)]]], [[[(3 : ℤ)]]], [[[(3 : ℤ)]]]]
    0 1 4 5 (by decide) (by decide) (by decide) (by decide) (by decide)

/-- C9: batch independence — if the four sub-blocks act per batch element
(shape-preservingly), then forward on the stacked batch [m1, m2] returns
exactly the concatenation of the results of forward on [m1] and on [m2]
(exactly, hence in particular within any numerical tolerance). -/
theorem encoder_batch_independence (e : Encoder) (g gf g1 g2 : Mat → Mat) (K d : ℕ)
    (m1 m2 : Mat) (o1 o2 : Tns)
    (hattn : ∀ t : Tns, e.selfAttention t t t = t.map g)
    (hffm : ∀ t : Tns, e.feedForward t = t.map gf)
    (hn1m : ∀ t : Tns, e.layerNorm1 t = t.map g1)
    (hn2m : ∀ t : Tns, e.layerNorm2 t = t.map g2)
    (hg : ∀ m, mshape? m = some (K, d) → mshape? (g m) = some (K, d))
    (hgf : ∀ m, mshape? m = some (K, d) → mshape? (gf m) = some (K, d))
    (hg1 : ∀ m, mshape? m = some (K, d) → mshape? (g1 m) = some (K, d))
    (hm1 : mshape? m1 = some (K, d)) (hm2 : mshape? m2 = some (K, d))
    (h1 : e.forward [m1] = some o1) (h2 : e.forward [m2] = some o2) :
    e.forward [m1, m2] = some (o1 ++ o2) := by
  obtain ⟨t, ht⟩ := forward_first_step h1
  obtain ⟨B', K', d', b2, k2, d2, hxs, hss, hc, -⟩ := addInPlace3_some_inv ht
  rw [tshape?_singleton hm1] at hxs
  simp only [Option.some.injEq, Prod.mk.injEq] at hxs
  obtain ⟨hB', hK', hd'⟩ := hxs
  subst hK'
  subst hd'
  obtain ⟨-, -, hmem⟩ := tshape?_inv hss
  have hpe : mshape? e.PE = some (k2, d2) := hmem e.PE (by simp)
  have hck : k2 = K ∨ k2 = 1 := hc.2.1
  have hcd : d2 = d ∨ d2 = 1 := hc.2.2
  have f1 := forward_single e g gf g1 g2 m1 hattn hffm hn1m hn2m hg hgf hg1 hm1 hpe hck hcd
  have f2 := forward_single e g gf g1 g2 m2 hattn hffm hn1m hn2m hg hgf hg1 hm2 hpe hck hcd
  rw [f1] at h1
  rw [f2] at h2
  have ho1 := Option.some.inj h1
  have ho2 := Option.some.inj h2
  rw [forward_pair e g gf g1 g2 m1 m2 hattn hffm hn1m hn2m hg hgf hg1 hm1 hm2 hpe hck hcd]
  rw [← ho1, ← ho2]
  rfl

/-- C9 (witness): stacking [[1]] and [[2]] gives exactly the two individual
results concatenated. -/
theorem encoder_batch_independence_witness :
    Encoder.forward (encId 1 1) [[[(1 : ℤ)]], [[(2 : ℤ)]]] =
      some ([[[(3 : ℤ)]]] ++ [[[(6 : ℤ)]]]) :=
  encoder_batch_independence (encId 1 1) (fun m => m) (fun m => m) (fun m => m) (fun m => m)
    1 1 [[(1 : ℤ)]] [[(2 : ℤ)]] [[[(3 : ℤ)]]] [[[(6 : ℤ)]]]
    (fun t => by simp [encId, Encoder.init, mkIdAttn, idAttn])
    (fun t => by simp [encId, Encoder.init, mkIdFF, idT])
    (fun t => by simp [encId, Encoder.init, mkIdNorm, idT])
    (fun t => by simp [encId, Encoder.init, mkIdNorm, idT])
    (fun _ h => h) (fun _ h => h) (fun _ h => h)
    (by decide) (by decide) (by decide) (by decide)
